import Mathlib

/-!
Verification of the documentation-migration tool (`bin/migrate-docs.py`).

The tool's core logic — a filename normalizer, a path mapper with
collision resolution, and a pattern-based reference rewriter — is
shallowly embedded here.  Strings are modelled as `List Char`; regular
expression character classes (`\d`, `[a-z]`, `\s`) are modelled over
their ASCII ranges; filesystem paths are modelled as lists of path
components (`List (List Char)`), with path equality being component-list
equality.  The external collaborators (the git history lookup feeding
`normalize_filename` its date, the filesystem traversal producing the
ordered list of discovered files, and file reads) are modelled as
explicit parameters, as the specification describes them as external.
-/

/-- Character-list form of a string literal; all embedded functions work on `List Char`. -/
def toL (s : String) : List Char := s.toList

/-- The backtick character, the inline-code delimiter of the rewriter's second pattern. -/
def btick : Char := Char.ofNat 96

/-- ASCII whitespace, as stripped by Python's `str.strip()` and matched by `\s`. -/
def isWsC (c : Char) : Bool :=
  c = ' ' || c = '\t' || c = '\n' || c = '\r' || c = Char.ofNat 11 || c = Char.ofNat 12

/-- ASCII lowercase letter, the `[a-z]` class of the inline-code pattern. -/
def isLowerL (c : Char) : Bool := 'a' ≤ c && c ≤ 'z'

/-- Python `str.strip()`: remove leading and trailing whitespace. -/
def stripWs (l : List Char) : List Char :=
  ((l.dropWhile isWsC).reverse.dropWhile isWsC).reverse

/-- `os.path.basename`: everything after the last path separator. -/
def basenameL (l : List Char) : List Char :=
  (l.reverse.takeWhile (fun c => c ≠ '/')).reverse

/-- The extension part of `os.path.splitext`: the suffix of the basename starting at its
last dot, unless every character before that dot in the basename is itself a dot
(so `.bashrc` has no extension).  Returns `[]` when there is no extension. -/
def splitextExt (s : List Char) : List Char :=
  let base := basenameL s
  let brev := base.reverse
  let pre := brev.takeWhile (fun c => c ≠ '.')
  if pre.length = brev.length then []
  else
    let extLen := pre.length + 1
    if (base.take (base.length - extLen)).any (fun c => c ≠ '.') then
      base.drop (base.length - extLen)
    else []

/-- Python `str.replace` specialised to a nonempty pattern `o :: os`:
replace non-overlapping occurrences left to right.  The fuel argument only
bounds the recursion depth; since the scan consumes at least one character per
step, fuel equal to the scanned list's length (as supplied by `pyReplace`)
never runs out. -/
def pyReplaceGo (o : Char) (os new : List Char) : Nat → List Char → List Char
  | 0, l => l
  | _ + 1, [] => []
  | fuel + 1, c :: t =>
    if (o :: os).isPrefixOf (c :: t) then
      new ++ pyReplaceGo o os new fuel ((c :: t).drop (os.length + 1))
    else
      c :: pyReplaceGo o os new fuel t

/-- Python `str.replace(old, new)` on character lists (including the empty-pattern case,
where Python inserts `new` at every position). -/
def pyReplace (s old new : List Char) : List Char :=
  match old with
  | [] => new ++ s.flatMap (fun c => c :: new)
  | o :: os => pyReplaceGo o os new s.length s

/-- Decimal rendering of a number, as interpolated into the console reports. -/
def natChars (n : Nat) : List Char := (Nat.repr n).toList

/-- Rendering of a component path as `str(Path(...))` produces it. -/
def renderP (p : List (List Char)) : List Char := (List.intersperse (toL "/") p).flatten

/-- Substring test, Python's `pat in s` for strings. -/
def containsSeq (pat : List Char) : List Char → Bool
  | [] => pat.isPrefixOf ([] : List Char)
  | c :: t => pat.isPrefixOf (c :: t) || containsSeq pat t

/-- Number of (possibly overlapping) positions at which `pat` occurs in the list. -/
def occCount (pat : List Char) : List Char → Nat
  | [] => if pat.isPrefixOf ([] : List Char) then 1 else 0
  | c :: t => (if pat.isPrefixOf (c :: t) then 1 else 0) + occCount pat t

/-! ### Constants of the tool -/

/-- `WORKSPACE`, rendered as `str(Path(...))` is in `normalize_code_reference`. -/
def WORKSPACE_STR : List Char := toL "/home/ubuntu/workspaces/flovyn"

/-- The target documentation root `dev/docs`, as a component path. -/
def TARGETP : List (List Char) := [WORKSPACE_STR, toL "dev", toL "docs"]

/-- The mapping manifest path `TARGET_DIR / "migration-map.txt"`. -/
def MAPPING_FILE : List (List Char) := TARGETP ++ [toL "migration-map.txt"]

/-- The four source repositories, in the order of `SOURCES`. -/
def SOURCES_REPOS : List (List Char) :=
  [toL "flovyn-server", toL "flovyn-app", toL "sdk-rust", toL "sdk-kotlin"]

/-- The category directories created under the target root. -/
def TARGET_DIRS : List (List Char) :=
  [toL "design", toL "plans", toL "research", toL "bugs", toL "guides",
   toL "architecture", toL "archive"]

/-- `CODE_EXTENSIONS`: the recognized code-reference extension set. -/
def CODE_EXTENSIONS : List (List Char) :=
  [toL ".rs", toL ".ts", toL ".tsx", toL ".py", toL ".kt", toL ".toml",
   toL ".sql", toL ".md", toL ".sh", toL ".json", toL ".yaml", toL ".yml"]

/-- The repository identifiers recognized by `normalize_code_reference`'s
already-prefixed check (a superset of `SOURCES_REPOS`). -/
def KNOWN_REPOS : List (List Char) :=
  [toL "flovyn-server", toL "flovyn-app", toL "sdk-rust", toL "sdk-python",
   toL "sdk-kotlin", toL "dev"]

/-! ### Filename Normalizer (`normalize_filename`) -/

/-- `re.match(r"^\d{8}_", s)`: eight ASCII digits followed by an underscore. -/
def hasDate8 : List Char → Bool
  | c1 :: c2 :: c3 :: c4 :: c5 :: c6 :: c7 :: c8 :: c9 :: _ =>
    c1.isDigit && c2.isDigit && c3.isDigit && c4.isDigit && c5.isDigit &&
    c6.isDigit && c7.isDigit && c8.isDigit && c9 = '_'
  | _ => false

/-- `re.sub(r"_\d{3}-", "_", s)`: scan left to right, replacing each
non-overlapping `_NNN-` match by a single underscore. -/
def subOrd : List Char → List Char
  | '_' :: a :: b :: c :: '-' :: rest =>
    if a.isDigit && b.isDigit && c.isDigit then '_' :: subOrd rest
    else '_' :: subOrd (a :: b :: c :: '-' :: rest)
  | c :: rest => c :: subOrd rest
  | [] => []

/-- `s.replace("-", "_")`: single-character replacement is a character map. -/
def replaceDash (l : List Char) : List Char :=
  l.map (fun c => if c = '-' then '_' else c)

/-- `normalize_filename(filename, source_file)`.  The date argument models the
result of the external `get_git_date(source_file)` collaborator (a `YYYYMMDD`
string per the spec; the function is pure in `(filename, date)`). -/
def normalize_filename (filename date : List Char) : List Char :=
  let r0 := if (toL ".md").isSuffixOf filename then filename.take (filename.length - 3)
            else filename
  let r1 := if hasDate8 r0 then r0 else date ++ '_' :: r0
  let r2 := subOrd r1
  let r3 := replaceDash r2
  r3 ++ toL ".md"

/-! ### Code-reference normalization (`normalize_code_reference`) -/

/-- `re.sub(r"^(\.\./)+", "", ref)`: strip all leading `../` segments. -/
def stripDotDots : List Char → List Char
  | '.' :: '.' :: '/' :: rest => stripDotDots rest
  | l => l

/-- `normalize_code_reference(ref, source_repo)`. -/
def normalize_code_reference (ref source_repo : List Char) : List Char :=
  if KNOWN_REPOS.any (fun r => (r ++ ['/']).isPrefixOf ref) then ref
  else if WORKSPACE_STR.isPrefixOf ref then
    (ref.drop WORKSPACE_STR.length).dropWhile (fun c => c = '/')
  else if (toL "..").isPrefixOf ref then
    source_repo ++ '/' :: stripDotDots ref
  else if ('/' ∈ ref) ∧ ¬ (toL ".").isPrefixOf ref then
    if splitextExt ref ∈ CODE_EXTENSIONS then source_repo ++ '/' :: ref else ref
  else ref

/-! ### FilenameTable (`filename_map`, a Python dict) -/

/-- The FilenameTable: original filename to normalized filename. -/
abbrev Table := List (List Char × List Char)

/-- Python dict assignment `t[k] = v`: update the existing entry in place, else append. -/
def dictInsert (t : Table) (k v : List Char) : Table :=
  if t.any (fun p => p.1 = k) then
    t.map (fun p => if p.1 = k then (k, v) else p)
  else t ++ [(k, v)]

/-- Python dict lookup (`k in t` and `t[k]` combined). -/
def lookupTbl (t : Table) (k : List Char) : Option (List Char) :=
  (t.find? (fun p => p.1 = k)).map (fun p => p.2)

/-- `normalize_doc_link(link, filename_map, source_repo)`: if the basename of the link
is a table key, replace its occurrences by the mapped name (`str.replace`). -/
def normalize_doc_link (link : List Char) (filename_map : Table)
    (_source_repo : List Char) : List Char :=
  match lookupTbl filename_map (basenameL link) with
  | some new_filename => pyReplace link (basenameL link) new_filename
  | none => link

/-! ### Reference Rewriter (`normalize_links_in_content`) -/

/-- Length of a match of `[^/]+/\.dev/docs/` starting at the head of the list,
if any: a nonempty run of non-separator characters whose following text starts
with `/.dev/docs/`. -/
def collapseMatchLen (l : List Char) : Option Nat :=
  match l with
  | [] => none
  | c :: rest =>
    if c = '/' then none
    else
      let k := 1 + (rest.takeWhile (fun c => c ≠ '/')).length
      if (toL "/.dev/docs/").isPrefixOf (l.drop k) then some (k + 11) else none

/-- `re.sub(r"[^/]+/\.dev/docs/", "dev/docs/", s)`: scan left to right,
replacing non-overlapping matches (every match has length at least 12, so
length-of-input fuel suffices). -/
def collapseDevDocsF : Nat → List Char → List Char
  | 0, l => l
  | _ + 1, [] => []
  | fuel + 1, c :: rest =>
    match collapseMatchLen (c :: rest) with
    | some n => toL "dev/docs/" ++ collapseDevDocsF fuel ((c :: rest).drop n)
    | none => c :: collapseDevDocsF fuel rest

/-- The doc-root collapse as applied by the rewriter. -/
def collapseDevDocs (l : List Char) : List Char := collapseDevDocsF l.length l

/-- The hyperlink replacer (`replace_md_link`), applied to one match of
`\[([^\]]*)\]\(([^)]+)\)` with label `text` and target `path`. -/
def replace_md_link (text path : List Char) (filename_map : Table)
    (source_repo : List Char) : List Char :=
  if (toL "http://").isPrefixOf path || (toL "https://").isPrefixOf path ||
     (toL "#").isPrefixOf path then
    '[' :: text ++ ']' :: '(' :: path ++ [')']
  else if (toL ".md").isSuffixOf path || containsSeq (toL "/.dev/docs/") path then
    let new_path := normalize_doc_link path filename_map source_repo
    let new_path := collapseDevDocs new_path
    '[' :: text ++ ']' :: '(' :: new_path ++ [')']
  else if splitextExt path ∈ CODE_EXTENSIONS then
    '[' :: text ++ ']' :: '(' :: normalize_code_reference path source_repo ++ [')']
  else
    '[' :: text ++ ']' :: '(' :: path ++ [')']

/-- Try to match the tail of a markdown link `([^\]]*)\]\(([^)]+)\)` at the head
of `l` (the open bracket has already been consumed); returns (label, target,
rest after the match).  Both character classes are followed by the literal they
exclude, so the greedy match is the run up to the first such literal. -/
def tryMd (l : List Char) : Option (List Char × List Char × List Char) :=
  let t := l.takeWhile (fun c => c ≠ ']')
  match l.drop t.length with
  | ']' :: '(' :: r2 =>
    let p := r2.takeWhile (fun c => c ≠ ')')
    if p.isEmpty then none
    else
      match r2.drop p.length with
      | ')' :: r3 => some (t, p, r3)
      | _ => none
  | _ => none

/-- The first rewriting pass: `re.sub` of the markdown-link pattern with
`replace_md_link`, scanning left to right (each match consumes at least three
characters beyond the rest it returns, so length fuel suffices). -/
def mdLinkSubF (filename_map : Table) (source_repo : List Char) :
    Nat → List Char → List Char
  | 0, l => l
  | _ + 1, [] => []
  | fuel + 1, c :: rest =>
    if c = '[' then
      match tryMd rest with
      | some (t, p, r) =>
        replace_md_link t p filename_map source_repo ++
          mdLinkSubF filename_map source_repo fuel r
      | none => c :: mdLinkSubF filename_map source_repo fuel rest
    else c :: mdLinkSubF filename_map source_repo fuel rest

/-- The markdown-link pass as applied to a whole content string. -/
def mdLinkSub (filename_map : Table) (source_repo : List Char) (l : List Char) :
    List Char :=
  mdLinkSubF filename_map source_repo l.length l

/-- Does `r` (a reversed token remainder) start with `k` lowercase letters
followed by a dot, with at least one character after the dot? -/
def extAt (r : List Char) (k : Nat) : Bool :=
  (r.take k).length = k && (r.take k).all isLowerL &&
  (r.drop k).take 1 = ['.'] && ¬ (r.drop (k + 1)).isEmpty

/-- Does a reversed remainder end (in forward direction) with `.[a-z]{1,4}`
preceded by at least one character? -/
def extShapeRev (r : List Char) : Bool :=
  extAt r 1 || extAt r 2 || extAt r 3 || extAt r 4

/-- Whether a whole between-backticks token matches `[^`]+\.[a-z]{1,4}(?::\d+)?`
exactly (the group must end at the closing backtick). -/
def tokenShape (tok : List Char) : Bool :=
  let rev := tok.reverse
  let ds := rev.takeWhile Char.isDigit
  if 0 < ds.length && (rev.drop ds.length).take 1 = [':'] then
    extShapeRev (rev.drop (ds.length + 1))
  else extShapeRev rev

/-- The inline-code replacer (`replace_code_ref`), applied to one backtick-delimited
token: strip any `:line` suffix for extension detection only, and rewrite the full
token via `normalize_code_reference` when the extension is recognized. -/
def replace_code_ref (ref source_repo : List Char) : List Char :=
  if splitextExt (ref.takeWhile (fun c => c ≠ ':')) ∈ CODE_EXTENSIONS then
    btick :: normalize_code_reference ref source_repo ++ [btick]
  else btick :: ref ++ [btick]

/-- The second rewriting pass: `re.sub` of the inline-code pattern
with `replace_code_ref` (length fuel, as for the other passes). -/
def codeRefSubF (source_repo : List Char) : Nat → List Char → List Char
  | 0, l => l
  | _ + 1, [] => []
  | fuel + 1, c :: rest =>
    if c = btick then
      match rest.drop (rest.takeWhile (fun c => c ≠ btick)).length with
      | _ :: r2 =>
        if tokenShape (rest.takeWhile (fun c => c ≠ btick)) then
          replace_code_ref (rest.takeWhile (fun c => c ≠ btick)) source_repo ++
            codeRefSubF source_repo fuel r2
        else c :: codeRefSubF source_repo fuel rest
      | [] => c :: codeRefSubF source_repo fuel rest
    else c :: codeRefSubF source_repo fuel rest

/-- The inline-code pass as applied to a whole content string. -/
def codeRefSub (source_repo : List Char) (l : List Char) : List Char :=
  codeRefSubF source_repo l.length l

/-- The labels of the third pattern, in alternation order. -/
def metaLabels : List (List Char) := [toL "Design", toL "Plan", toL "Bug"]

/-- The text following `**Label:**` with the leading `\s*` run and one optional
open bracket consumed: the region in which group 2 of the metadata pattern matches. -/
def metaR3 (l lab : List Char) : List Char :=
  let r1 := l.drop (2 + lab.length + 3)
  let r2 := r1.drop (r1.takeWhile isWsC).length
  if r2.take 1 = ['['] then r2.drop 1 else r2


/-- Match the group-2 part `([^\]\n]+)\]?` at the head of the remainder:
return (group 2, rest after the optional closing bracket). -/
def metaTail (r3 : List Char) : Option (List Char × List Char) :=
  let g := r3.takeWhile (fun c => c ≠ ']' && c ≠ '\n')
  if g.isEmpty then none
  else
    let r4 := r3.drop g.length
    some (g, if r4.take 1 = [']'] then r4.drop 1 else r4)

/-- Try to match `\*\*(Design|Plan|Bug):\*\*\s*\[?([^\]\n]+)\]?` at the head of `l`;
returns (label, group 2, rest after the match).  The Python engine's
backtracking cases (where the maximal whitespace run leaves an empty group 2)
only ever produce a group that strips to the empty string, whose replacement
equals the match verbatim, so they are modelled as match failures. -/
def tryMeta (l : List Char) : Option (List Char × List Char × List Char) :=
  if (toL "**").isPrefixOf l then
    match metaLabels.find? (fun lab => (lab ++ toL ":**").isPrefixOf (l.drop 2)) with
    | some lab =>
      match metaTail (metaR3 l lab) with
      | some (g, r) => some (lab, g, r)
      | none => none
    | none => none
  else none

/-- The metadata replacer (`replace_meta`): when the stripped group ends in the
markup extension, rewrite it as a documentation link and normalize away the
brackets; otherwise keep the matched span verbatim. -/
def replace_meta (lab g : List Char) (filename_map : Table) (source_repo : List Char)
    (span : List Char) : List Char :=
  if (toL ".md").isSuffixOf (stripWs g) then
    let new_path := normalize_doc_link (stripWs g) filename_map source_repo
    let new_path := collapseDevDocs new_path
    '*' :: '*' :: lab ++ ':' :: '*' :: '*' :: ' ' :: new_path
  else span

/-- The third rewriting pass: `re.sub` of the metadata pattern with `replace_meta`
(length fuel, as for the other passes). -/
def metaSubF (filename_map : Table) (source_repo : List Char) :
    Nat → List Char → List Char
  | 0, l => l
  | _ + 1, [] => []
  | fuel + 1, c :: rest =>
    match tryMeta (c :: rest) with
    | some (lab, g, r) =>
      replace_meta lab g filename_map source_repo
          ((c :: rest).take ((c :: rest).length - r.length)) ++
        metaSubF filename_map source_repo fuel r
    | none => c :: metaSubF filename_map source_repo fuel rest

/-- The metadata pass as applied to a whole content string. -/
def metaSub (filename_map : Table) (source_repo : List Char) (l : List Char) :
    List Char :=
  metaSubF filename_map source_repo l.length l

/-- `normalize_links_in_content(content, filename_map, source_repo)`: the three
rewriting passes in order, plus the (always empty) warning list. -/
def normalize_links_in_content (content : List Char) (filename_map : Table)
    (source_repo : List Char) : List Char × List (List Char) :=
  let c1 := mdLinkSub filename_map source_repo content
  let c2 := codeRefSub source_repo c1
  let c3 := metaSub filename_map source_repo c2
  (c3, [])

/-! ### Path Mapper (`build_filename_mapping`)

Filesystem paths are modelled as component lists (`PathL`); the traversal
(`sorted(source_dir.rglob("*.md"))`) is an external collaborator, so the
per-repository file lists, each file's relative path components, and the date
produced by `get_git_date` are inputs.  `target_path.exists()` is modelled by
an existence predicate on paths. -/

/-- A filesystem path, as its list of components. -/
abbrev PathL := List (List Char)

/-- A discovered source file: its relative path under the repository's
documentation root, split as first component (`parts[0]`) plus the remaining
components (so the list of parts is `p0 :: rest`, never empty), together with
the date that `get_git_date` yields for it. -/
structure SrcFile where
  p0 : List Char
  rest : List (List Char)
  date : List Char
deriving DecidableEq

/-- `source_file.name`: the last component of the relative path. -/
def fnameOf (f : SrcFile) : List Char := f.rest.getLastD f.p0

/-- The destination directory components under the target root:
`[dir_type]`, or `[dir_type, subdir]` when the relative path has more than
two components (`len(parts) > 2`). -/
def dirsOf (f : SrcFile) : PathL :=
  match f.rest with
  | s :: _ :: _ => [f.p0, s]
  | _ => [f.p0]

/-- The absolute path of a discovered source file:
`WORKSPACE/{repo}/.dev/docs/{relative parts}`. -/
def srcPath (repo : List Char) (f : SrcFile) : PathL :=
  [WORKSPACE_STR, repo, toL ".dev", toL "docs"] ++ f.p0 :: f.rest

/-- One `FileMapping` record. -/
structure FileMapping where
  old_path : PathL
  new_path : PathL
  old_filename : List Char
  new_filename : List Char
  source_repo : List Char

/-- The normalized filename with its extension removed (`new_filename[:-3]`),
the base used when a collision suffix is appended. -/
def normBase (f : SrcFile) : List Char :=
  let nf := normalize_filename (fnameOf f) f.date
  nf.take (nf.length - 3)

/-- Processing of one discovered file: normalize the filename, compute the
tentative destination, and on a collision (destination exists on disk, or
equals a destination assigned earlier in the run) append the source
repository identifier to the base before the extension. -/
def stepMapping (ex : PathL → Bool) (acc : List FileMapping) (repo : List Char)
    (f : SrcFile) : FileMapping :=
  let new_filename := normalize_filename (fnameOf f) f.date
  let target_path := TARGETP ++ dirsOf f ++ [new_filename]
  if ex target_path || acc.any (fun m => m.new_path = target_path) then
    let base := new_filename.take (new_filename.length - 3)
    let nf2 := base ++ '_' :: (repo ++ toL ".md")
    { old_path := srcPath repo f
      new_path := TARGETP ++ dirsOf f ++ [nf2]
      old_filename := fnameOf f
      new_filename := nf2
      source_repo := repo }
  else
    { old_path := srcPath repo f
      new_path := target_path
      old_filename := fnameOf f
      new_filename := new_filename
      source_repo := repo }

/-- The mapping loop over the (repository, file) pairs in discovery order,
appending each `FileMapping` and registering
`filename_map[old_filename] = new_filename`. -/
def processFiles (ex : PathL → Bool) :
    List (List Char × SrcFile) → List FileMapping → Table → List FileMapping × Table
  | [], acc, tbl => (acc, tbl)
  | (repo, f) :: rest, acc, tbl =>
    let m := stepMapping ex acc repo f
    processFiles ex rest (acc ++ [m]) (dictInsert tbl (fnameOf f) m.new_filename)

/-- `build_filename_mapping(dry_run)`: iterate the four `SOURCES` repositories
in order over their discovered files (`env` yields each repository's sorted
file list; a missing source directory yields the empty list).  The `dry_run`
argument is accepted and, as in the source, unused. -/
def build_filename_mapping (ex : PathL → Bool) (env : List Char → List SrcFile)
    (_dry_run : Bool) : List FileMapping × Table :=
  processFiles ex (SOURCES_REPOS.flatMap (fun r => (env r).map (fun f => (r, f)))) [] []

/-! ### Migration and the top-level flow (`migrate_file`, `write_mapping_file`, `main`)

Filesystem mutations are reified as an effect list; console output as the list
of printed strings.  File reads (`read_text`) are an environment function from
paths to contents; the `date` subprocess output in the manifest header is the
`gen` parameter. -/

/-- A filesystem mutation performed by the tool. -/
inductive FsEffect where
  | mkdirp : PathL → FsEffect
  | writeFile : PathL → List Char → FsEffect
deriving DecidableEq

/-- `migrate_file(mapping, filename_map, dry_run)`: read the source, rewrite its
links, and (unless dry-run) create the parent directory and write the result.
Returns (warnings, effects). -/
def migrate_file (readF : PathL → List Char) (filename_map : Table)
    (m : FileMapping) (dry_run : Bool) : List (List Char) × List FsEffect :=
  let content := readF m.old_path
  let res := normalize_links_in_content content filename_map m.source_repo
  (res.2,
   if dry_run then []
   else [FsEffect.mkdirp m.new_path.dropLast, FsEffect.writeFile m.new_path res.1])

/-- The per-mapping loop of `main`: two progress lines per file, then
`migrate_file`; returns (printed lines, accumulated warnings, effects). -/
def migrateLoop (readF : PathL → List Char) (filename_map : Table) (dry_run : Bool) :
    List FileMapping → List (List Char) × List (List Char) × List FsEffect
  | [] => ([], [], [])
  | m :: ms =>
    let pr := [toL "  " ++ renderP m.old_path, toL "    -> " ++ renderP m.new_path]
    let res := migrate_file readF filename_map m dry_run
    let rec0 := migrateLoop readF filename_map dry_run ms
    (pr ++ rec0.1, res.1 ++ rec0.2.1, res.2 ++ rec0.2.2)

/-- The content of the mapping manifest written by `write_mapping_file`. -/
def mappingContent (ms : List FileMapping) (gen : List Char) : List Char :=
  toL "# Doc Migration Mapping\n" ++
  (toL "# Generated: " ++ gen ++ toL "\n") ++
  toL "# Format: old_path -> new_path\n\n" ++
  (ms.map (fun m => renderP m.old_path ++ toL " -> " ++ renderP m.new_path ++ toL "\n")).flatten

/-- `write_mapping_file(mappings, dry_run)`: no effect under dry-run. -/
def write_mapping_file (ms : List FileMapping) (gen : List Char) (dry_run : Bool) :
    List FsEffect :=
  if dry_run then [] else [FsEffect.writeFile MAPPING_FILE (mappingContent ms gen)]

/-- Apply the write effects to the set of files on disk (directory creation
adds no files; a write adds the file if absent). -/
def applyEffects (disk : List PathL) : List FsEffect → List PathL
  | [] => disk
  | FsEffect.mkdirp _ :: es => applyEffects disk es
  | FsEffect.writeFile p _ :: es =>
    applyEffects (if p ∈ disk then disk else disk ++ [p]) es

/-- The count reported as `Migrated files:`: markup files under the target root
(`TARGET_DIR.rglob("*.md")`). -/
def countMd (fs : List PathL) : Nat :=
  (fs.filter (fun p =>
    TARGETP.isPrefixOf p && (toL ".md").isSuffixOf (p.getLastD []))).length

/-- `main()`: the complete run, returning (console lines, filesystem effects).
`env` is the traversal, `disk` the pre-existing files (used both by the
collision check and the final count), `readF` the file contents, `gen` the
manifest timestamp, `dry_run` the flag. -/
def mainRun (env : List Char → List SrcFile) (disk : List PathL)
    (readF : PathL → List Char) (gen : List Char) (dry_run : Bool) :
    List (List Char) × List FsEffect :=
  let c0 := if dry_run then [toL "=== DRY RUN MODE ===\n"] else []
  let c1 := [toL "=== Doc Migration Script ===\n", toL "Creating target directories..."]
  let dirCs := TARGET_DIRS.map (fun d => toL "  " ++ renderP (TARGETP ++ [d]))
  let e0 := if dry_run then []
            else TARGET_DIRS.map (fun d => FsEffect.mkdirp (TARGETP ++ [d]))
  let bm := build_filename_mapping (fun p => decide (p ∈ disk)) env dry_run
  let c2 := [[], toL "Building file mapping...",
             toL "  Found " ++ natChars bm.1.length ++ toL " files to migrate\n"]
  let lr := migrateLoop readF bm.2 dry_run bm.1
  let wmEff := write_mapping_file bm.1 gen dry_run
  let effs := e0 ++ lr.2.2 ++ wmEff
  let migrated := countMd (applyEffects disk effs)
  let sumLines := toL "\n=== Summary ===" ::
    (if dry_run then
      [toL "Dry run complete. No files were modified.",
       toL "Run without --dry-run to execute migration."]
     else
      [toL "Migrated files: " ++ natChars migrated,
       toL "Mapping file: " ++ renderP MAPPING_FILE])
  let warnLines := if lr.2.1.isEmpty then []
    else (toL "\nWarnings (" ++ natChars lr.2.1.length ++ toL "):") ::
      lr.2.1.map (fun w => toL "  - " ++ w)
  (c0 ++ c1 ++ dirCs ++ c2 ++ lr.1 ++ sumLines ++ warnLines, effs)

/-! ### Helper lemmas -/

theorem digit_ne_dash {c : Char} (h : c.isDigit = true) : c ≠ '-' := by
  intro he; subst he; exact absurd h (by decide)

theorem replaceDash_no_dash (l : List Char) : '-' ∉ replaceDash l := by
  intro h
  simp only [replaceDash, List.mem_map] at h
  obtain ⟨c, -, hc⟩ := h
  by_cases h2 : c = '-'
  · rw [if_pos h2] at hc; exact absurd hc (by decide)
  · rw [if_neg h2] at hc; exact h2 hc

theorem replaceDash_id {l : List Char} (h : '-' ∉ l) : replaceDash l = l := by
  induction l with
  | nil => rfl
  | cons c t ih =>
    simp only [List.mem_cons, not_or] at h
    simp only [replaceDash, List.map_cons]
    rw [if_neg (fun he => h.1 he.symm)]
    have ht := ih h.2
    simp only [replaceDash] at ht
    rw [ht]

theorem subOrd_no_dash : ∀ {l : List Char}, '-' ∉ l → subOrd l = l := by
  intro l
  induction l using subOrd.induct with
  | case1 a b c rest hd ih =>
    intro h; exact absurd (by simp : '-' ∈ '_' :: a :: b :: c :: '-' :: rest) h
  | case2 a b c rest hd ih =>
    intro h; exact absurd (by simp : '-' ∈ '_' :: a :: b :: c :: '-' :: rest) h
  | case3 c rest hne ih =>
    intro h
    rw [subOrd.eq_2 c rest hne]
    simp only [List.mem_cons, not_or] at h
    rw [ih h.2]
  | case4 => intro h; rfl

/-- Claim helper: `normalize_filename` always produces `… ++ ".md"` with no
hyphen before the extension. -/
theorem normalize_filename_no_dash (f d : List Char) :
    '-' ∉ normalize_filename f d := by
  intro h
  simp only [normalize_filename] at h
  rcases List.mem_append.mp h with h | h
  · exact replaceDash_no_dash _ h
  · exact absurd h (by decide)

theorem normalize_filename_ends_md (f d : List Char) :
    (toL ".md").isSuffixOf (normalize_filename f d) = true := by
  simp only [normalize_filename]
  simp

/-! ### Claims about the Filename Normalizer -/

/-- Claim C6: normalizing `001-bug-report.md` with resolved date `20240315`
yields exactly `20240315_bug_report.md`: the extension is stripped, the date
is prepended, the `_001-` ordinal segment collapses to one underscore, the
remaining hyphen becomes an underscore, and the extension is re-appended. -/
theorem c6_normalize_example :
    normalize_filename (toL "001-bug-report.md") (toL "20240315") =
      toL "20240315_bug_report.md" := by decide

/-- Claim C10: for every input string (whether or not it ends in the markup
extension) and every date, `normalize_filename` returns a string that ends in
`.md` and contains no hyphen; in particular the extensionless input `notes`
with date `20240315` yields `20240315_notes.md` rather than failing. -/
theorem c10_normalize_total (f d : List Char) :
    (toL ".md").isSuffixOf (normalize_filename f d) = true ∧
    '-' ∉ normalize_filename f d ∧
    normalize_filename (toL "notes") (toL "20240315") = toL "20240315_notes.md" :=
  ⟨normalize_filename_ends_md f d, normalize_filename_no_dash f d, by decide⟩

/-- Normalization fixes any hyphen-free stem that already carries the date
prefix, once the extension is around it. -/
theorem normalize_filename_of_normalized {F d : List Char}
    (hd8 : hasDate8 F = true) (hnd : '-' ∉ F) :
    normalize_filename (F ++ toL ".md") d = F ++ toL ".md" := by
  have htake : (F ++ toL ".md").take (F.length + (toL ".md").length - 3) = F :=
    List.take_left' (by simp [show (toL ".md").length = 3 from rfl])
  simp only [normalize_filename]
  have h0 : (if (toL ".md").isSuffixOf (F ++ toL ".md") = true
      then List.take ((F ++ toL ".md").length - 3) (F ++ toL ".md")
      else F ++ toL ".md") = F := by
    rw [if_pos (by simp), List.length_append, htake]
  rw [h0, if_pos hd8, subOrd_no_dash hnd, replaceDash_id hnd]

/-- Claim C7: filename normalization is idempotent on already-normalized names:
any filename matching `^\d{8}_.*\.md$` (eight ASCII digits, an underscore, an
arbitrary stem, the markup extension) that contains no hyphen — and hence no
`_NNN-` ordinal segment — is mapped to itself, for every date input. -/
theorem c7_normalize_idempotent (c1 c2 c3 c4 c5 c6 c7 c8 : Char)
    (rest d : List Char) (h1 : c1.isDigit = true) (h2 : c2.isDigit = true)
    (h3 : c3.isDigit = true) (h4 : c4.isDigit = true) (h5 : c5.isDigit = true)
    (h6 : c6.isDigit = true) (h7 : c7.isDigit = true) (h8 : c8.isDigit = true)
    (h9 : '-' ∉ rest) :
    normalize_filename ([c1, c2, c3, c4, c5, c6, c7, c8] ++ '_' :: rest ++ toL ".md") d =
      [c1, c2, c3, c4, c5, c6, c7, c8] ++ '_' :: rest ++ toL ".md" := by
  have hnd : '-' ∉ [c1, c2, c3, c4, c5, c6, c7, c8] ++ '_' :: rest := by
    intro hm
    rcases List.mem_append.mp hm with hm | hm
    · simp only [List.mem_cons, List.not_mem_nil, or_false] at hm
      rcases hm with h | h | h | h | h | h | h | h
      · exact digit_ne_dash h1 h.symm
      · exact digit_ne_dash h2 h.symm
      · exact digit_ne_dash h3 h.symm
      · exact digit_ne_dash h4 h.symm
      · exact digit_ne_dash h5 h.symm
      · exact digit_ne_dash h6 h.symm
      · exact digit_ne_dash h7 h.symm
      · exact digit_ne_dash h8 h.symm
    · rcases List.mem_cons.mp hm with h | h
      · exact absurd h (by decide)
      · exact h9 h
  have hd8 : hasDate8 ([c1, c2, c3, c4, c5, c6, c7, c8] ++ '_' :: rest) = true := by
    simp [hasDate8, h1, h2, h3, h4, h5, h6, h7, h8]
  have hmain := normalize_filename_of_normalized (d := d) hd8 hnd
  simpa [List.append_assoc] using hmain

/-! ### Facts about `normalize_code_reference` and `splitextExt` -/

theorem takeWhile_append_all {p : Char → Bool} {l₁ l₂ : List Char}
    (h : ∀ a ∈ l₁, p a = true) :
    (l₁ ++ l₂).takeWhile p = l₁ ++ l₂.takeWhile p := by
  induction l₁ with
  | nil => simp
  | cons c t ih =>
    have hc := h c (List.mem_cons_self c t)
    simp [List.takeWhile_cons, hc, ih (fun a ha => h a (List.mem_cons_of_mem c ha))]

theorem basenameL_append {P X : List Char} (h : '/' ∉ X) :
    basenameL (P ++ X) = basenameL P ++ X := by
  simp only [basenameL, List.reverse_append]
  rw [takeWhile_append_all (fun a ha => by
    have hne : a ≠ '/' := fun he => h (he ▸ List.mem_reverse.mp ha)
    simp [hne])]
  simp

/-- When a separator-free, dot-free tail is appended to a path, the extension
computed by `splitextExt` is either empty or ends with that whole tail. -/
theorem splitextExt_suffix_append {P X : List Char} (hX1 : '/' ∉ X) (hX2 : '.' ∉ X) :
    splitextExt (P ++ X) = [] ∨ X <:+ splitextExt (P ++ X) := by
  have hB : basenameL (P ++ X) = basenameL P ++ X := basenameL_append hX1
  have hpre : (basenameL P ++ X).reverse.takeWhile (fun c => c ≠ '.') =
      X.reverse ++ (basenameL P).reverse.takeWhile (fun c => c ≠ '.') := by
    rw [List.reverse_append]
    exact takeWhile_append_all (fun a ha => by
      have hne : a ≠ '.' := fun he => hX2 (he ▸ List.mem_reverse.mp ha)
      simp [hne])
  simp only [splitextExt, hB, hpre]
  split
  · exact Or.inl rfl
  · split
    · refine Or.inr ?_
      set B := basenameL P with hBdef
      have hlen : B.length + X.length -
          (X.length + (B.reverse.takeWhile (fun c => c ≠ '.')).length + 1) ≤ B.length := by
        omega
      have harith : (B ++ X).length -
          ((X.reverse ++ B.reverse.takeWhile (fun c => c ≠ '.')).length + 1) =
          B.length + X.length -
            (X.length + (B.reverse.takeWhile (fun c => c ≠ '.')).length + 1) := by
        simp [List.length_append, List.length_reverse]
      rw [harith, List.drop_append_of_le_length hlen]
      exact List.suffix_append _ _
    · exact Or.inl rfl

/-- Branch (i) of `normalize_code_reference`: already repository-prefixed
references are returned unchanged. -/
theorem ncr_already_prefixed {ref repo r : List Char} (hr : r ∈ KNOWN_REPOS)
    (hpre : (r ++ ['/']).isPrefixOf ref = true) :
    normalize_code_reference ref repo = ref := by
  have hc : KNOWN_REPOS.any (fun r => (r ++ ['/']).isPrefixOf ref) = true :=
    List.any_eq_true.mpr ⟨r, hr, hpre⟩
  simp only [normalize_code_reference]
  rw [if_pos hc]

/-- Branch (iii) of `normalize_code_reference`: leading `../` segments are all
stripped and the originating repository is prefixed. -/
theorem ncr_dotdot {ref repo : List Char} (hp : (toL "../").isPrefixOf ref = true) :
    normalize_code_reference ref repo = repo ++ '/' :: stripDotDots ref := by
  obtain ⟨t, rfl⟩ := List.isPrefixOf_iff_prefix.mp hp
  have hc1 : KNOWN_REPOS.any (fun r => (r ++ ['/']).isPrefixOf (toL "../" ++ t)) = false :=
    rfl
  have hc2 : WORKSPACE_STR.isPrefixOf (toL "../" ++ t) = false := rfl
  have hc3 : (toL "..").isPrefixOf (toL "../" ++ t) = true := rfl
  simp only [normalize_code_reference]
  rw [if_neg (by simp [hc1]), if_neg (by simp [hc2]), if_pos hc3]

theorem dotdot_check_false {ref : List Char}
    (h2 : (toL ".").isPrefixOf ref = false) :
    (toL "..").isPrefixOf ref = false := by
  cases ref with
  | nil => rfl
  | cons c t =>
    have e1 : toL "." = ['.'] := rfl
    have e2 : toL ".." = ['.', '.'] := rfl
    rw [e1] at h2
    rw [e2]
    simp only [List.isPrefixOf_cons₂, List.isPrefixOf_nil_left, Bool.and_true] at h2
    simp [List.isPrefixOf_cons₂, h2]

/-- Branch (iv) of `normalize_code_reference`: a bare separator-containing
reference with a recognized extension gains the originating repository. -/
theorem ncr_bare {ref repo : List Char} (h1 : '/' ∈ ref)
    (h2 : (toL ".").isPrefixOf ref = false)
    (h3 : WORKSPACE_STR.isPrefixOf ref = false)
    (h4 : KNOWN_REPOS.any (fun r => (r ++ ['/']).isPrefixOf ref) = false)
    (h5 : splitextExt ref ∈ CODE_EXTENSIONS) :
    normalize_code_reference ref repo = repo ++ '/' :: ref := by
  simp only [normalize_code_reference]
  rw [if_neg (by simp [h4]), if_neg (by simp [h3]),
    if_neg (by simp [dotdot_check_false h2]),
    if_pos (And.intro h1 (by simp [h2])), if_pos h5]

/-- Fall-through of `normalize_code_reference`: when none of the branch
conditions applies (in particular the extension check fails on the raw
reference), the reference is returned unchanged. -/
theorem ncr_unrecognized {ref repo : List Char}
    (h1 : splitextExt ref ∉ CODE_EXTENSIONS)
    (h2 : (toL ".").isPrefixOf ref = false)
    (h3 : WORKSPACE_STR.isPrefixOf ref = false)
    (h4 : KNOWN_REPOS.any (fun r => (r ++ ['/']).isPrefixOf ref) = false) :
    normalize_code_reference ref repo = ref := by
  simp only [normalize_code_reference]
  rw [if_neg (by simp [h4]), if_neg (by simp [h3]),
    if_neg (by simp [dotdot_check_false h2])]
  by_cases hc : ('/' ∈ ref) ∧ ¬ (toL ".").isPrefixOf ref = true
  · rw [if_pos hc, if_neg h1]
  · rw [if_neg hc]

/-! ### Claim C5: the three code-reference normalization cases -/

/-- Claim C5: code-reference normalization (i) leaves a reference that already
starts with a known repository identifier and a separator unchanged regardless
of originating repository, (ii) strips all leading `../` segments and prefixes
the originating repository, and (iii) prefixes the originating repository to a
separator-containing reference with a recognized code extension that starts
with no relative-traversal marker (and is neither workspace-absolute nor
already repository-prefixed, i.e. falls in none of the earlier cases). -/
theorem c5_code_reference_cases :
    (∀ ref repo r, r ∈ KNOWN_REPOS → (r ++ ['/']).isPrefixOf ref = true →
      normalize_code_reference ref repo = ref) ∧
    (∀ ref repo, (toL "../").isPrefixOf ref = true →
      normalize_code_reference ref repo = repo ++ '/' :: stripDotDots ref) ∧
    (∀ ref repo, '/' ∈ ref → (toL ".").isPrefixOf ref = false →
      WORKSPACE_STR.isPrefixOf ref = false →
      KNOWN_REPOS.any (fun r => (r ++ ['/']).isPrefixOf ref) = false →
      splitextExt ref ∈ CODE_EXTENSIONS →
      normalize_code_reference ref repo = repo ++ '/' :: ref) :=
  ⟨fun _ _ _ hr hp => ncr_already_prefixed hr hp,
   fun _ _ hp => ncr_dotdot hp,
   fun _ _ h1 h2 h3 h4 h5 => ncr_bare h1 h2 h3 h4 h5⟩

/-- Witness for C5 at the three concrete references of the specification. -/
theorem c5_code_reference_witness :
    normalize_code_reference (toL "sdk-kotlin/src/Main.kt") (toL "flovyn-app") =
      toL "sdk-kotlin/src/Main.kt" ∧
    normalize_code_reference (toL "../../src/lib.rs") (toL "sdk-rust") =
      toL "sdk-rust/src/lib.rs" ∧
    normalize_code_reference (toL "src/handler.rs") (toL "flovyn-server") =
      toL "flovyn-server/src/handler.rs" := by
  refine ⟨?_, ?_, ?_⟩
  · exact c5_code_reference_cases.1 (toL "sdk-kotlin/src/Main.kt") (toL "flovyn-app")
      (toL "sdk-kotlin") (by decide) (by decide)
  · exact (c5_code_reference_cases.2.1 (toL "../../src/lib.rs") (toL "sdk-rust")
      (by decide)).trans (by decide)
  · exact (c5_code_reference_cases.2.2 (toL "src/handler.rs") (toL "flovyn-server")
      (by decide) (by decide) (by decide) (by decide) (by decide)).trans (by decide)

/-! ### Claim C3: inline references with a line-number suffix -/

/-- Counterexample for C3 as stated: the inline reference
`` `src/handler.rs:42` `` from `flovyn-server` passes extension detection
(the `:42` is stripped before it), yet the backtick pass leaves it unchanged
instead of producing `` `flovyn-server/src/handler.rs:42` ``: the bare-path
branch of the normalizer applies `os.path.splitext` to the unstripped
reference, sees the unrecognized extension `.rs:42`, and declines to rewrite. -/
theorem c3_bare_line_ref_counterexample :
    codeRefSub (toL "flovyn-server") (toL "`src/handler.rs:42`") =
      toL "`src/handler.rs:42`" ∧
    toL "`src/handler.rs:42`" ≠ toL "`flovyn-server/src/handler.rs:42`" :=
  ⟨by decide, by decide⟩

/-- Claim C3 (amended): a backtick token whose pre-`:line` extension is
recognized is passed to the code-reference normalizer with its line-number
suffix attached, and the backticks are restored.  (i) An
already-repository-prefixed token is kept unchanged; (ii) a token with leading
`../` segments is rewritten with the suffix preserved verbatim; but (iii) a
bare relative token carrying a line-number suffix is left entirely unchanged,
because the normalizer's own extension check runs on the un-stripped token. -/
theorem c3_line_suffix_behavior :
    (∀ ref repo r, r ∈ KNOWN_REPOS → (r ++ ['/']).isPrefixOf ref = true →
      splitextExt (ref.takeWhile (fun c => c ≠ ':')) ∈ CODE_EXTENSIONS →
      replace_code_ref ref repo = btick :: ref ++ [btick]) ∧
    (∀ ref repo, (toL "../").isPrefixOf ref = true →
      splitextExt (ref.takeWhile (fun c => c ≠ ':')) ∈ CODE_EXTENSIONS →
      replace_code_ref ref repo =
        btick :: (repo ++ '/' :: stripDotDots ref) ++ [btick]) ∧
    (∀ P ds repo, ':' ∉ P → '/' ∉ ds → '.' ∉ ds → '/' ∈ P →
      (toL ".").isPrefixOf (P ++ ':' :: ds) = false →
      WORKSPACE_STR.isPrefixOf (P ++ ':' :: ds) = false →
      KNOWN_REPOS.any (fun r => (r ++ ['/']).isPrefixOf (P ++ ':' :: ds)) = false →
      splitextExt P ∈ CODE_EXTENSIONS →
      replace_code_ref (P ++ ':' :: ds) repo = btick :: (P ++ ':' :: ds) ++ [btick]) := by
  refine ⟨?_, ?_, ?_⟩
  · intro ref repo r hr hp hext
    simp only [replace_code_ref]
    rw [if_pos hext, ncr_already_prefixed hr hp]
  · intro ref repo hp hext
    simp only [replace_code_ref]
    rw [if_pos hext, ncr_dotdot hp]
  · intro P ds repo hP hds1 hds2 hsl h2 h3 h4 h5
    have htw : (P ++ ':' :: ds).takeWhile (fun c => c ≠ ':') = P := by
      rw [takeWhile_append_all (fun a ha => by
        have hne : a ≠ ':' := fun he => hP (he ▸ ha)
        simp [hne])]
      simp [List.takeWhile_cons]
    have hX1 : '/' ∉ ':' :: ds := by
      intro hm
      rcases List.mem_cons.mp hm with hm | hm
      · exact absurd hm (by decide)
      · exact hds1 hm
    have hX2 : '.' ∉ ':' :: ds := by
      intro hm
      rcases List.mem_cons.mp hm with hm | hm
      · exact absurd hm (by decide)
      · exact hds2 hm
    have hcolfree : ∀ e ∈ CODE_EXTENSIONS, ':' ∉ e := by decide
    have hext : splitextExt (P ++ ':' :: ds) ∉ CODE_EXTENSIONS := by
      rcases splitextExt_suffix_append (P := P) hX1 hX2 with he | he
      · rw [he]; decide
      · intro hmem
        exact hcolfree _ hmem (he.subset (List.mem_cons_self ':' ds))
    simp only [replace_code_ref]
    rw [htw, if_pos h5, ncr_unrecognized hext h2 h3 h4]

/-- Witness for C3 at the three shapes, with concrete line-number suffixes. -/
theorem c3_line_suffix_witness :
    replace_code_ref (toL "sdk-kotlin/src/Main.kt:10") (toL "flovyn-app") =
      toL "`sdk-kotlin/src/Main.kt:10`" ∧
    replace_code_ref (toL "../../src/lib.rs:42") (toL "sdk-rust") =
      toL "`sdk-rust/src/lib.rs:42`" ∧
    replace_code_ref (toL "src/handler.rs:42") (toL "flovyn-server") =
      toL "`src/handler.rs:42`" := by
  refine ⟨?_, ?_, ?_⟩
  · exact (c3_line_suffix_behavior.1 (toL "sdk-kotlin/src/Main.kt:10") (toL "flovyn-app")
      (toL "sdk-kotlin") (by decide) (by decide) (by decide)).trans (by decide)
  · exact (c3_line_suffix_behavior.2.1 (toL "../../src/lib.rs:42") (toL "sdk-rust")
      (by decide) (by decide)).trans (by decide)
  · exact (c3_line_suffix_behavior.2.2 (toL "src/handler.rs") (toL "42")
      (toL "flovyn-server") (by decide) (by decide) (by decide) (by decide) (by decide)
      (by decide) (by decide) (by decide)).trans (by decide)

/-! ### Facts about `pyReplace` and the documentation-link branch -/

theorem pyReplaceGo_nil (o : Char) (os v : List Char) (f : Nat) :
    pyReplaceGo o os v f [] = [] := by cases f <;> rfl

theorem occCount_ge_one_of_suffix {pat l : List Char} (hpat : pat ≠ [])
    (h : pat <:+ l) : 1 ≤ occCount pat l := by
  obtain ⟨p, rfl⟩ := h
  induction p with
  | nil =>
    cases pat with
    | nil => exact absurd rfl hpat
    | cons o os =>
      have h2 : occCount (o :: os) ([] ++ o :: os) =
          (if (o :: os).isPrefixOf (o :: os) then 1 else 0) +
            occCount (o :: os) os := rfl
      have hself : (o :: os).isPrefixOf (o :: os) = true :=
        List.isPrefixOf_iff_prefix.mpr (List.prefix_refl _)
      rw [h2, if_pos hself]
      omega
  | cons c t ih =>
    have h2 : occCount pat ((c :: t) ++ pat) =
        (if pat.isPrefixOf (c :: (t ++ pat)) then 1 else 0) +
          occCount pat (t ++ pat) := rfl
    rw [h2]
    have h3 := ih
    split <;> omega

theorem pyReplaceGo_single (o : Char) (os v : List Char) :
    ∀ (p : List Char) (fuel : Nat), (p ++ o :: os).length ≤ fuel →
      occCount (o :: os) (p ++ o :: os) = 1 →
      pyReplaceGo o os v fuel (p ++ o :: os) = p ++ v := by
  intro p
  induction p with
  | nil =>
    intro fuel hf h1
    cases fuel with
    | zero => simp at hf
    | succ f =>
      have h3 : pyReplaceGo o os v (f + 1) ([] ++ o :: os) =
          if (o :: os).isPrefixOf (o :: os) then
            v ++ pyReplaceGo o os v f ((o :: os).drop (os.length + 1))
          else o :: pyReplaceGo o os v f os := rfl
      have hself : (o :: os).isPrefixOf (o :: os) = true :=
        List.isPrefixOf_iff_prefix.mpr (List.prefix_refl _)
      rw [h3, if_pos hself]
      have hdrop : (o :: os).drop (os.length + 1) = [] := by
        have h4 := List.drop_length (o :: os)
        simpa using h4
      rw [hdrop, pyReplaceGo_nil]
      simp
  | cons c p' ih =>
    intro fuel hf h1
    cases fuel with
    | zero => simp at hf
    | succ f =>
      have hocc : 1 ≤ occCount (o :: os) (p' ++ o :: os) :=
        occCount_ge_one_of_suffix (by simp) (List.suffix_append _ _)
      have h2 : occCount (o :: os) ((c :: p') ++ o :: os) =
          (if (o :: os).isPrefixOf (c :: (p' ++ o :: os)) then 1 else 0) +
            occCount (o :: os) (p' ++ o :: os) := rfl
      rw [h2] at h1
      have hnp : (o :: os).isPrefixOf (c :: (p' ++ o :: os)) = false := by
        cases hb : (o :: os).isPrefixOf (c :: (p' ++ o :: os)) with
        | false => rfl
        | true => rw [if_pos hb] at h1; omega
      rw [if_neg (by simp [hnp])] at h1
      have h3 : pyReplaceGo o os v (f + 1) ((c :: p') ++ o :: os) =
          if (o :: os).isPrefixOf (c :: (p' ++ o :: os)) then
            v ++ pyReplaceGo o os v f ((c :: (p' ++ o :: os)).drop (os.length + 1))
          else c :: pyReplaceGo o os v f (p' ++ o :: os) := rfl
      rw [h3, if_neg (by simp [hnp])]
      have hf' : (p' ++ o :: os).length ≤ f := by
        have h4 : ((c :: p') ++ o :: os).length = (p' ++ o :: os).length + 1 := by
          simp
        omega
      rw [ih f hf' (by omega)]
      simp

/-- Python `str.replace` replaces a nonempty pattern occurring exactly once,
as the final segment, by the replacement, leaving the prefix untouched. -/
theorem pyReplace_single_occ {p k v : List Char} (hk : k ≠ [])
    (h1 : occCount k (p ++ k) = 1) : pyReplace (p ++ k) k v = p ++ v := by
  cases k with
  | nil => exact absurd rfl hk
  | cons o os =>
    exact pyReplaceGo_single o os v p (p ++ o :: os).length (Nat.le_refl _) h1

/-- The documentation branch of the hyperlink replacer: when the target is not
a web or anchor link, is a documentation reference, and its basename is a
table key, the output link's target is the `str.replace`-substituted target
with the doc-root collapse applied. -/
theorem replace_md_link_doc {text path : List Char} {fmap : Table}
    {repo v : List Char}
    (hw : ¬ ((toL "http://").isPrefixOf path || (toL "https://").isPrefixOf path ||
      (toL "#").isPrefixOf path) = true)
    (hd : ((toL ".md").isSuffixOf path || containsSeq (toL "/.dev/docs/") path) = true)
    (hl : lookupTbl fmap (basenameL path) = some v) :
    replace_md_link text path fmap repo =
      '[' :: text ++ ']' :: '(' ::
        collapseDevDocs (pyReplace path (basenameL path) v) ++ [')'] := by
  simp only [replace_md_link, normalize_doc_link, hl]
  rw [if_neg hw, if_pos hd]

/-! ### Claim C4: documentation-link rewriting through the FilenameTable -/

/-- Counterexample for C4 as stated: rewriting does not replace only the
filename portion of a documentation target.  `str.replace` substitutes every
occurrence of the filename, so the adversarial target `001-foo.md/001-foo.md`
(whose basename `001-foo.md` is a table key) has its directory component
rewritten as well, instead of yielding `001-foo.md/20240102_foo.md`. -/
theorem c4_replace_all_counterexample :
    replace_md_link (toL "x") (toL "001-foo.md/001-foo.md")
      [(toL "001-foo.md", toL "20240102_foo.md")] (toL "sdk-rust") =
      toL "[x](20240102_foo.md/20240102_foo.md)" ∧
    toL "[x](20240102_foo.md/20240102_foo.md)" ≠
      toL "[x](001-foo.md/20240102_foo.md)" :=
  ⟨by decide, by decide⟩

/-- Claim C4 (amended): for a hyperlink whose target is a documentation
reference with its basename a FilenameTable key, the rewriter replaces every
occurrence of that filename in the target (`str.replace`) and collapses
`{segment}/.dev/docs/` to `dev/docs/`; when the filename occurs exactly once —
as the final path component — this replaces only the filename portion, leaving
the rest of the path untouched.  The specification's example holds end to end:
`[See design](../.dev/docs/design/001-foo.md)` with table
`{"001-foo.md": "20240102_foo.md"}` becomes
`[See design](dev/docs/design/20240102_foo.md)`. -/
theorem c4_doc_link_rewrite :
    (normalize_links_in_content (toL "[See design](../.dev/docs/design/001-foo.md)")
        [(toL "001-foo.md", toL "20240102_foo.md")] (toL "sdk-rust")).1 =
      toL "[See design](dev/docs/design/20240102_foo.md)" ∧
    (∀ text path fmap repo v,
      ¬ ((toL "http://").isPrefixOf path || (toL "https://").isPrefixOf path ||
        (toL "#").isPrefixOf path) = true →
      ((toL ".md").isSuffixOf path || containsSeq (toL "/.dev/docs/") path) = true →
      lookupTbl fmap (basenameL path) = some v →
      replace_md_link text path fmap repo =
        '[' :: text ++ ']' :: '(' ::
          collapseDevDocs (pyReplace path (basenameL path) v) ++ [')']) ∧
    (∀ p k v, k ≠ [] → occCount k (p ++ k) = 1 →
      pyReplace (p ++ k) k v = p ++ v) :=
  ⟨by decide,
   fun _ _ _ _ _ hw hd hl => replace_md_link_doc hw hd hl,
   fun _ _ _ hk h1 => pyReplace_single_occ hk h1⟩

/-- Witness for C4 at the specification's example, through the hyperlink
replacer with its three hypotheses discharged concretely. -/
theorem c4_doc_link_witness :
    replace_md_link (toL "See design") (toL "../.dev/docs/design/001-foo.md")
      [(toL "001-foo.md", toL "20240102_foo.md")] (toL "sdk-rust") =
      toL "[See design](dev/docs/design/20240102_foo.md)" :=
  (c4_doc_link_rewrite.2.1 (toL "See design") (toL "../.dev/docs/design/001-foo.md")
    [(toL "001-foo.md", toL "20240102_foo.md")] (toL "sdk-rust")
    (toL "20240102_foo.md") (by decide) (by decide) (by decide)).trans (by decide)

/-! ### Claim C8: hyperlinks with web or anchor targets -/

/-- Counterexample for C8 as stated: in the input
`**Design:** [http://x.md](http://x.md)` with FilenameTable
`{"x.md": "y.md"}`, the hyperlink's target starts with `http://`, yet the
Reference Rewriter's labeled-metadata pass rewrites the overlapping
`**Design:** [http://x.md]` span, so the hyperlink does not survive unchanged
in the output: the output is `**Design:** http://y.md(http://x.md)`. -/
theorem c8_meta_pass_counterexample :
    (normalize_links_in_content (toL "**Design:** [http://x.md](http://x.md)")
        [(toL "x.md", toL "y.md")] (toL "flovyn-server")).1 =
      toL "**Design:** http://y.md(http://x.md)" ∧
    containsSeq (toL "[http://x.md](http://x.md)")
        ((normalize_links_in_content (toL "**Design:** [http://x.md](http://x.md)")
          [(toL "x.md", toL "y.md")] (toL "flovyn-server")).1) = false :=
  ⟨by decide, by decide⟩

/-- Claim C8 (amended): the hyperlink pass itself never modifies a hyperlink
whose target starts with `http://`, `https://`, or `#` — its replacer returns
the match verbatim for every label, target, FilenameTable, and originating
repository — though the labeled-metadata pass may still rewrite text
overlapping such a hyperlink. -/
theorem c8_web_links_skipped (text path : List Char) (filename_map : Table)
    (repo : List Char)
    (h : (toL "http://").isPrefixOf path = true ∨
         (toL "https://").isPrefixOf path = true ∨
         (toL "#").isPrefixOf path = true) :
    replace_md_link text path filename_map repo =
      '[' :: text ++ ']' :: '(' :: path ++ [')'] := by
  simp only [replace_md_link]
  rcases h with h | h | h <;> rw [if_pos (by simp [h])]

/-- Witness for C8 at a concrete web-URL hyperlink whose filename is even a
FilenameTable key. -/
theorem c8_web_links_witness :
    replace_md_link (toL "t") (toL "https://example.com/a.md")
      [(toL "a.md", toL "b.md")] (toL "sdk-rust") =
      '[' :: toL "t" ++ ']' :: '(' :: toL "https://example.com/a.md" ++ [')'] :=
  c8_web_links_skipped (toL "t") (toL "https://example.com/a.md")
    [(toL "a.md", toL "b.md")] (toL "sdk-rust") (Or.inr (Or.inl (by decide)))

/-! ### Facts about the FilenameTable dictionary -/

theorem lookup_mapUpd (k v k' : List Char) : ∀ t : Table,
    lookupTbl (t.map (fun p => if p.1 = k then (k, v) else p)) k' =
      if k' = k then (lookupTbl t k).map (fun _ => v) else lookupTbl t k' := by
  intro t
  induction t with
  | nil => simp [lookupTbl]
  | cons p t ih =>
    simp only [lookupTbl] at ih ⊢
    simp only [List.map_cons]
    by_cases hp : p.1 = k
    · rw [if_pos hp]
      by_cases hk : k' = k
      · rw [if_pos hk]
        rw [List.find?_cons_of_pos _ (by simp [hk]),
          List.find?_cons_of_pos _ (by simp [hp, hk])]
        simp
      · rw [if_neg hk]
        rw [List.find?_cons_of_neg _ (by simp [Ne.symm hk]),
          List.find?_cons_of_neg _ (by simp [hp, Ne.symm hk])]
        have hi := ih
        rw [if_neg hk] at hi
        exact hi
    · rw [if_neg hp]
      by_cases hq : p.1 = k'
      · have hk : ¬ k' = k := fun he => hp (he ▸ hq)
        rw [if_neg hk]
        rw [List.find?_cons_of_pos _ (by simp [hq]),
          List.find?_cons_of_pos _ (by simp [hq])]
      · by_cases hk : k' = k
        · rw [if_pos hk]
          rw [List.find?_cons_of_neg _ (by simp [hq]),
            List.find?_cons_of_neg _ (by simp [hp])]
          have hi := ih
          rw [if_pos hk] at hi
          exact hi
        · rw [if_neg hk]
          rw [List.find?_cons_of_neg _ (by simp [hq]),
            List.find?_cons_of_neg _ (by simp [hq])]
          have hi := ih
          rw [if_neg hk] at hi
          exact hi

theorem lookup_append_new (k v k' : List Char) : ∀ t : Table,
    t.any (fun p => p.1 = k) = false →
    lookupTbl (t ++ [(k, v)]) k' =
      if k' = k then some v else lookupTbl t k' := by
  intro t
  induction t with
  | nil =>
    intro _
    by_cases hk : k' = k
    · rw [if_pos hk]
      simp only [lookupTbl, List.nil_append]
      rw [List.find?_cons_of_pos _ (by simp [hk])]
      rfl
    · rw [if_neg hk]
      simp only [lookupTbl, List.nil_append]
      rw [List.find?_cons_of_neg _ (by simp [Ne.symm hk])]
  | cons p t ih =>
    intro hany
    simp only [List.any_cons, Bool.or_eq_false_iff] at hany
    simp only [lookupTbl, List.cons_append] at ih ⊢
    by_cases hq : p.1 = k'
    · have hk : ¬ k' = k := by
        intro he
        subst he
        have := hany.1
        simp [hq] at this
      rw [if_neg hk]
      rw [List.find?_cons_of_pos _ (by simp [hq]),
        List.find?_cons_of_pos _ (by simp [hq])]
    · rw [List.find?_cons_of_neg _ (by simp [hq]),
        List.find?_cons_of_neg _ (by simp [hq])]
      exact ih hany.2

/-- Python dict assignment: the subsequent lookup sees the newly assigned
value for that key and is unchanged for every other key. -/
theorem dictInsert_lookup (t : Table) (k v k' : List Char) :
    lookupTbl (dictInsert t k v) k' =
      if k' = k then some v else lookupTbl t k' := by
  simp only [dictInsert]
  split
  next hany =>
    rw [lookup_mapUpd]
    by_cases hk : k' = k
    · subst hk
      obtain ⟨p, hp, hpk⟩ := List.any_eq_true.mp hany
      have hs : (t.find? (fun p => decide (p.1 = k'))).isSome :=
        List.find?_isSome.mpr ⟨p, hp, hpk⟩
      obtain ⟨q, hq⟩ := Option.isSome_iff_exists.mp hs
      simp [lookupTbl, hq]
    · simp [hk]
  next hany =>
    refine lookup_append_new k v k' t ?_
    cases hb : t.any (fun p => p.1 = k) with
    | false => rfl
    | true => exact absurd hb hany

theorem stepMapping_old_filename (ex : PathL → Bool) (acc : List FileMapping)
    (repo : List Char) (f : SrcFile) :
    (stepMapping ex acc repo f).old_filename = fnameOf f := by
  simp only [stepMapping]
  split <;> rfl

theorem processFiles_table (ex : PathL → Bool) :
    ∀ (items : List (List Char × SrcFile)) (acc : List FileMapping) (tbl : Table),
    (∀ k, lookupTbl tbl k = (acc.filterMap
        (fun m => if m.old_filename = k then some m.new_filename else none)).getLast?) →
    ∀ k, lookupTbl (processFiles ex items acc tbl).2 k =
      ((processFiles ex items acc tbl).1.filterMap
        (fun m => if m.old_filename = k then some m.new_filename else none)).getLast? := by
  intro items
  induction items with
  | nil => intro acc tbl hinv k; exact hinv k
  | cons it rest ih =>
    intro acc tbl hinv k
    obtain ⟨repo, f⟩ := it
    simp only [processFiles]
    apply ih
    intro k'
    rw [dictInsert_lookup, List.filterMap_append]
    by_cases hk : k' = fnameOf f
    · rw [if_pos hk]
      have hm : ([stepMapping ex acc repo f].filterMap
          (fun m => if m.old_filename = k' then some m.new_filename else none)) =
          [(stepMapping ex acc repo f).new_filename] := by
        simp [List.filterMap_cons, stepMapping_old_filename, hk]
      rw [hm, List.getLast?_concat]
    · rw [if_neg hk]
      have hm : ([stepMapping ex acc repo f].filterMap
          (fun m => if m.old_filename = k' then some m.new_filename else none)) = [] := by
        simp [List.filterMap_cons, stepMapping_old_filename, Ne.symm hk]
      rw [hm, List.append_nil]
      exact hinv k'

/-! ### Claim C1: what the FilenameTable registers -/

/-- Everywhere-false existence predicate: an empty destination tree. -/
def exFalse : PathL → Bool := fun _ => false

/-- Two repositories contributing an identically named file, same git date. -/
def envC1 : List Char → List SrcFile := fun r =>
  if r = toL "flovyn-server" then [⟨toL "design", [toL "foo.md"], toL "20240101"⟩]
  else if r = toL "flovyn-app" then [⟨toL "design", [toL "foo.md"], toL "20240101"⟩]
  else []

/-- Counterexample for C1 as stated: `foo.md` from both `flovyn-server` and
`flovyn-app` normalizes to the base canonical name `20240101_foo.md`; the
second file's destination collides and receives the repository suffix — and
the FilenameTable entry for `foo.md` is the collision-suffixed
`20240101_foo_flovyn-app.md`, not the pre-collision-suffix base name that the
claim requires. -/
theorem c1_suffix_registered_counterexample :
    normalize_filename (toL "foo.md") (toL "20240101") = toL "20240101_foo.md" ∧
    lookupTbl (build_filename_mapping exFalse envC1 false).2 (toL "foo.md") =
      some (toL "20240101_foo_flovyn-app.md") ∧
    toL "20240101_foo_flovyn-app.md" ≠ toL "20240101_foo.md" :=
  ⟨by decide, by decide, by decide⟩

/-- Claim C1 (amended): the Path Mapper registers each discovered file in the
FilenameTable under its post-collision-resolution normalized filename — the
table entry for an original filename equals the `new_filename` of the last
processed FileMapping with that `old_filename` (repository suffix included
whenever that mapping's destination collided), and is absent when no mapping
has that original filename. -/
theorem c1_table_registers_post_collision (ex : PathL → Bool)
    (env : List Char → List SrcFile) (dry : Bool) (k : List Char) :
    lookupTbl (build_filename_mapping ex env dry).2 k =
      ((build_filename_mapping ex env dry).1.filterMap
        (fun m => if m.old_filename = k then some m.new_filename else none)).getLast? :=
  processFiles_table ex _ [] [] (fun _ => rfl) k

/-! ### Claim C2: uniqueness of destination paths

The collision suffix `_{repo}` always contains a hyphen (every repository in
`SOURCES` does), while a normalized base name never does, so a suffixed
destination filename can never equal an un-suffixed one, and the repository is
recoverable from a suffixed filename by reading back to the last hyphen. -/

/-- Take characters up to (excluding) the first hyphen. -/
def twd : List Char → List Char
  | [] => []
  | c :: t => if c = '-' then [] else c :: twd t

theorem twd_append_dash {A : List Char} (h : '-' ∈ A) (B : List Char) :
    twd (A ++ B) = twd A := by
  induction A with
  | nil => exact absurd h (List.not_mem_nil _)
  | cons c t ih =>
    by_cases hc : c = '-'
    · subst hc; simp [twd]
    · rcases List.mem_cons.mp h with h | h
      · exact absurd h.symm hc
      · simp [twd, hc, ih h]

/-- The repository tag readable from the reverse of a suffixed filename. -/
def tagR (r : List Char) : List Char := twd ((toL ".md").reverse ++ r.reverse)

theorem repos_dash : ∀ r ∈ SOURCES_REPOS, '-' ∈ r := by decide

theorem tagR_inj : ∀ r1 ∈ SOURCES_REPOS, ∀ r2 ∈ SOURCES_REPOS,
    tagR r1 = tagR r2 → r1 = r2 := by decide

theorem tag_of_suffixed {b r : List Char} (hr : '-' ∈ r) :
    twd ((b ++ '_' :: (r ++ toL ".md")).reverse) = tagR r := by
  have h1 : (b ++ '_' :: (r ++ toL ".md")).reverse =
      ((toL ".md").reverse ++ r.reverse) ++ ('_' :: b.reverse) := by
    simp
  rw [h1, twd_append_dash (by simp [hr])]
  rfl

/-- A collision-suffixed filename determines its repository (among the four
sources) and its base. -/
theorem suffix_repo_inj {b1 b2 r1 r2 : List Char}
    (hr1 : r1 ∈ SOURCES_REPOS) (hr2 : r2 ∈ SOURCES_REPOS)
    (heq : b1 ++ '_' :: (r1 ++ toL ".md") = b2 ++ '_' :: (r2 ++ toL ".md")) :
    r1 = r2 ∧ b1 = b2 := by
  have ht := congrArg (fun l => twd l.reverse) heq
  simp only at ht
  rw [tag_of_suffixed (repos_dash r1 hr1), tag_of_suffixed (repos_dash r2 hr2)] at ht
  have hre : r1 = r2 := tagR_inj r1 hr1 r2 hr2 ht
  subst hre
  exact ⟨rfl, List.append_cancel_right heq⟩

/-- Two destination paths under the target root agree exactly on their
directory part and filename. -/
theorem targetPath_inj {d1 d2 : PathL} {f1 f2 : List Char}
    (h : TARGETP ++ d1 ++ [f1] = TARGETP ++ d2 ++ [f2]) : d1 = d2 ∧ f1 = f2 := by
  have h1 : d1 ++ [f1] = d2 ++ [f2] := by
    rw [List.append_assoc, List.append_assoc] at h
    exact List.append_cancel_left h
  constructor
  · have h2 := congrArg List.dropLast h1
    simpa [List.dropLast_concat] using h2
  · have h3 := congrArg List.getLast? h1
    simp only [List.getLast?_concat, Option.some.injEq] at h3
    exact h3

/-- The adversarial hypothesis of the amended C2: no later discovered file
shares repository, destination directory, and normalized base with an earlier
one. -/
def KeyDisj (x y : List Char × SrcFile) : Prop :=
  ¬ (y.1 = x.1 ∧ dirsOf y.2 = dirsOf x.2 ∧ normBase y.2 = normBase x.2)

instance (x y : List Char × SrcFile) : Decidable (KeyDisj x y) := by
  unfold KeyDisj
  infer_instance

/-- The invariant carried by the mapping loop: every produced mapping's
destination is the target root plus a directory part plus a filename that is
either hyphen-free (an unsuffixed canonical name) or the repository-suffixed
form of a base claimed by no remaining input file of the same repository. -/
def MInv (m : FileMapping) (rest : List (List Char × SrcFile)) : Prop :=
  ∃ d fn, m.new_path = TARGETP ++ d ++ [fn] ∧
    (('-' ∉ fn) ∨
      ∃ b, fn = b ++ '_' :: (m.source_repo ++ toL ".md") ∧
        m.source_repo ∈ SOURCES_REPOS ∧
        ∀ it ∈ rest, ¬ (it.1 = m.source_repo ∧ dirsOf it.2 = d ∧ normBase it.2 = b))

theorem MInv_tail {m : FileMapping} {it : List Char × SrcFile}
    {rest : List (List Char × SrcFile)} (h : MInv m (it :: rest)) : MInv m rest := by
  obtain ⟨d, fn, hp, hrec⟩ := h
  refine ⟨d, fn, hp, ?_⟩
  rcases hrec with h | ⟨b, hfn, hr, hdisj⟩
  · exact Or.inl h
  · exact Or.inr ⟨b, hfn, hr, fun it' hit' => hdisj it' (List.mem_cons_of_mem _ hit')⟩

theorem stepMapping_eq_pos {ex : PathL → Bool} {acc : List FileMapping}
    {repo : List Char} {f : SrcFile}
    (hcol : (ex (TARGETP ++ dirsOf f ++ [normalize_filename (fnameOf f) f.date]) ||
      acc.any (fun m =>
        m.new_path = TARGETP ++ dirsOf f ++ [normalize_filename (fnameOf f) f.date])) = true) :
    stepMapping ex acc repo f =
      { old_path := srcPath repo f
        new_path := TARGETP ++ dirsOf f ++ [normBase f ++ '_' :: (repo ++ toL ".md")]
        old_filename := fnameOf f
        new_filename := normBase f ++ '_' :: (repo ++ toL ".md")
        source_repo := repo } := by
  simp only [stepMapping, normBase]
  rw [if_pos hcol]

theorem stepMapping_eq_neg {ex : PathL → Bool} {acc : List FileMapping}
    {repo : List Char} {f : SrcFile}
    (hcol : (ex (TARGETP ++ dirsOf f ++ [normalize_filename (fnameOf f) f.date]) ||
      acc.any (fun m =>
        m.new_path = TARGETP ++ dirsOf f ++ [normalize_filename (fnameOf f) f.date])) = false) :
    stepMapping ex acc repo f =
      { old_path := srcPath repo f
        new_path := TARGETP ++ dirsOf f ++ [normalize_filename (fnameOf f) f.date]
        old_filename := fnameOf f
        new_filename := normalize_filename (fnameOf f) f.date
        source_repo := repo } := by
  simp only [stepMapping]
  rw [if_neg (by simp only [hcol]; exact Bool.false_ne_true)]

/-- The suffixed filename produced on a collision contains a hyphen. -/
theorem suffixed_has_dash {b repo : List Char} (hr : repo ∈ SOURCES_REPOS) :
    '-' ∈ b ++ '_' :: (repo ++ toL ".md") := by
  have hd := repos_dash repo hr
  exact List.mem_append.mpr (Or.inr (List.mem_cons_of_mem _
    (List.mem_append.mpr (Or.inl hd))))

/-- The mapping loop preserves uniqueness of destination paths, given that no
two remaining files of one repository share a destination directory and
normalized base. -/
theorem processFiles_nodup (ex : PathL → Bool) :
    ∀ (items : List (List Char × SrcFile)), ∀ (acc : List FileMapping) (tbl : Table),
    List.Pairwise KeyDisj items →
    (∀ it ∈ items, it.1 ∈ SOURCES_REPOS) →
    (acc.map (fun m => m.new_path)).Nodup →
    (∀ m ∈ acc, MInv m items) →
    ((processFiles ex items acc tbl).1.map (fun m => m.new_path)).Nodup := by
  intro items
  induction items with
  | nil =>
    intro acc tbl _ _ hnd _
    exact hnd
  | cons it rest ih =>
    obtain ⟨repo, f⟩ := it
    intro acc tbl hpair hmem hnd hinv
    rw [List.pairwise_cons] at hpair
    have hrepo : repo ∈ SOURCES_REPOS := hmem (repo, f) (List.mem_cons_self _ _)
    simp only [processFiles]
    apply ih
    · exact hpair.2
    · intro it' hit'
      exact hmem it' (List.mem_cons_of_mem _ hit')
    · rw [List.map_append, List.nodup_append]
      refine ⟨hnd, by simp, ?_⟩
      intro p hp
      simp only [List.map_cons, List.map_nil, List.mem_singleton] at *
      obtain ⟨m', hm', rfl⟩ := List.mem_map.mp hp
      intro heqp
      cases hcolb : ex (TARGETP ++ dirsOf f ++ [normalize_filename (fnameOf f) f.date]) ||
          acc.any (fun m =>
            m.new_path = TARGETP ++ dirsOf f ++ [normalize_filename (fnameOf f) f.date]) with
      | false =>
        rw [stepMapping_eq_neg hcolb] at heqp
        have hany : acc.any (fun m =>
            m.new_path = TARGETP ++ dirsOf f ++ [normalize_filename (fnameOf f) f.date]) =
              true :=
          List.any_eq_true.mpr ⟨m', hm', by simp [heqp]⟩
        rw [hany] at hcolb
        simp at hcolb
      | true =>
        rw [stepMapping_eq_pos hcolb] at heqp
        obtain ⟨d', fn', hpath', hrec⟩ := hinv m' hm'
        rw [hpath'] at heqp
        obtain ⟨hd, hf⟩ := targetPath_inj heqp
        rcases hrec with hnod | ⟨b', hfn', hr', hdisj'⟩
        · rw [hf] at hnod
          exact hnod (suffixed_has_dash hrepo)
        · have heq2 : b' ++ '_' :: (m'.source_repo ++ toL ".md") =
              normBase f ++ '_' :: (repo ++ toL ".md") := by
            rw [← hfn', hf]
          obtain ⟨hre, hbe⟩ := suffix_repo_inj hr' hrepo heq2
          exact hdisj' (repo, f) (List.mem_cons_self _ _) ⟨hre.symm, hd.symm, hbe.symm⟩
    · intro m' hm'
      rcases List.mem_append.mp hm' with hm' | hm'
      · exact MInv_tail (hinv m' hm')
      · rw [List.mem_singleton] at hm'
        subst hm'
        cases hcolb : ex (TARGETP ++ dirsOf f ++ [normalize_filename (fnameOf f) f.date]) ||
            acc.any (fun m =>
              m.new_path = TARGETP ++ dirsOf f ++ [normalize_filename (fnameOf f) f.date]) with
        | false =>
          rw [stepMapping_eq_neg hcolb]
          exact ⟨dirsOf f, normalize_filename (fnameOf f) f.date, rfl,
            Or.inl (normalize_filename_no_dash _ _)⟩
        | true =>
          rw [stepMapping_eq_pos hcolb]
          refine ⟨dirsOf f, normBase f ++ '_' :: (repo ++ toL ".md"), rfl,
            Or.inr ⟨normBase f, rfl, hrepo, ?_⟩⟩
          intro it' hit' hbad
          exact hpair.1 it' hit' hbad

/-- One repository contributing three files that all normalize to the same
canonical name in the same category. -/
def envC2 : List Char → List SrcFile := fun r =>
  if r = toL "flovyn-server" then
    [⟨toL "design", [toL "001-foo.md"], toL "20240101"⟩,
     ⟨toL "design", [toL "002-foo.md"], toL "20240101"⟩,
     ⟨toL "design", [toL "003-foo.md"], toL "20240101"⟩]
  else []

/-- Counterexample for C2 as stated: when one repository contributes three
files `001-foo.md`, `002-foo.md`, `003-foo.md` in the same category that all
normalize to `20240101_foo.md`, the second and third both collide with the
first and both receive the same repository suffix, so two FileMappings share
the destination `…/design/20240101_foo_flovyn-server.md`. -/
theorem c2_duplicate_destination_counterexample :
    ¬ ((build_filename_mapping exFalse envC2 false).1.map
        (fun m => m.new_path)).Nodup ∧
    ((build_filename_mapping exFalse envC2 false).1.map
        (fun m => m.new_filename)) =
      [toL "20240101_foo.md", toL "20240101_foo_flovyn-server.md",
       toL "20240101_foo_flovyn-server.md"] :=
  ⟨by decide, by decide⟩

/-- Claim C2 (amended): the destination paths of all FileMappings in a run are
pairwise distinct — for every disk state and every input set of source files
in which no repository contributes two files that normalize to the same base
name in the same destination directory (multiple repositories may still
contribute identically named files; those are disambiguated by the repository
suffix).  The excluded same-repository case is exactly the one the
counterexample shows to produce duplicates. -/
theorem c2_unique_destinations_of_distinct_keys (ex : PathL → Bool)
    (env : List Char → List SrcFile) (dry : Bool)
    (hkey : List.Pairwise KeyDisj
      (SOURCES_REPOS.flatMap (fun r => (env r).map (fun f => (r, f))))) :
    ((build_filename_mapping ex env dry).1.map (fun m => m.new_path)).Nodup := by
  apply processFiles_nodup
  · exact hkey
  · intro it hit
    rw [List.mem_flatMap] at hit
    obtain ⟨r, hr, hit⟩ := hit
    rw [List.mem_map] at hit
    obtain ⟨f, -, rfl⟩ := hit
    exact hr
  · simp
  · intro m hm
    exact absurd hm (List.not_mem_nil _)

/-- Witness for C2 at a two-repository input whose cross-repository collision
is resolved by suffixing, with the key-distinctness hypothesis discharged
concretely. -/
theorem c2_unique_destinations_witness :
    ((build_filename_mapping exFalse envC1 false).1.map
      (fun m => m.new_path)).Nodup :=
  c2_unique_destinations_of_distinct_keys exFalse envC1 false (by decide)

/-! ### Claim C9: dry-run effects and console reporting -/

theorem migrate_file_warns (readF : PathL → List Char) (fmap : Table)
    (m : FileMapping) (dry : Bool) : (migrate_file readF fmap m dry).1 = [] := rfl

theorem migrateLoop_warns (readF : PathL → List Char) (fmap : Table) (dry : Bool) :
    ∀ ms : List FileMapping, (migrateLoop readF fmap dry ms).2.1 = [] := by
  intro ms
  induction ms with
  | nil => rfl
  | cons m ms ih =>
    simp only [migrateLoop, migrate_file_warns, List.nil_append]
    exact ih

theorem migrateLoop_effects_dry (readF : PathL → List Char) (fmap : Table) :
    ∀ ms : List FileMapping, (migrateLoop readF fmap true ms).2.2 = [] := by
  intro ms
  induction ms with
  | nil => rfl
  | cons m ms ih =>
    simp only [migrateLoop, migrate_file, if_pos, List.nil_append]
    exact ih

theorem migrateLoop_lines (readF : PathL → List Char) (fmap : Table) (dry : Bool) :
    ∀ ms : List FileMapping,
      (migrateLoop readF fmap dry ms).1 = (migrateLoop readF fmap true ms).1 := by
  intro ms
  induction ms with
  | nil => rfl
  | cons m ms ih =>
    simp only [migrateLoop]
    rw [ih]

/-- The part of the console report common to both modes: headers, target
directories, mapping summary, and the per-file progress lines. -/
def commonConsole (env : List Char → List SrcFile) (disk : List PathL)
    (readF : PathL → List Char) : List (List Char) :=
  [toL "=== Doc Migration Script ===\n", toL "Creating target directories..."] ++
  TARGET_DIRS.map (fun d => toL "  " ++ renderP (TARGETP ++ [d])) ++
  [[], toL "Building file mapping...",
   toL "  Found " ++
     natChars (build_filename_mapping (fun p => decide (p ∈ disk)) env true).1.length ++
     toL " files to migrate\n"] ++
  (migrateLoop readF (build_filename_mapping (fun p => decide (p ∈ disk)) env true).2 true
    (build_filename_mapping (fun p => decide (p ∈ disk)) env true).1).1

/-- The dry-run summary lines. -/
def dryTail : List (List Char) :=
  [toL "\n=== Summary ===", toL "Dry run complete. No files were modified.",
   toL "Run without --dry-run to execute migration."]

/-- The execute-mode summary lines (post-write file count and manifest path). -/
def execTail (env : List Char → List SrcFile) (disk : List PathL)
    (readF : PathL → List Char) (gen : List Char) : List (List Char) :=
  [toL "\n=== Summary ===",
   toL "Migrated files: " ++ natChars (countMd (applyEffects disk
     (TARGET_DIRS.map (fun d => FsEffect.mkdirp (TARGETP ++ [d])) ++
      (migrateLoop readF
        (build_filename_mapping (fun p => decide (p ∈ disk)) env false).2 false
        (build_filename_mapping (fun p => decide (p ∈ disk)) env false).1).2.2 ++
      [FsEffect.writeFile MAPPING_FILE
        (mappingContent (build_filename_mapping (fun p => decide (p ∈ disk)) env false).1
          gen)]))),
   toL "Mapping file: " ++ renderP MAPPING_FILE]

/-- Every path reads as empty: the file contents are irrelevant here. -/
def readF0 : PathL → List Char := fun _ => []

/-- No discovered files at all. -/
def envEmpty : List Char → List SrcFile := fun _ => []

/-- Counterexample for C9 as stated: even with no discovered files and an
empty disk, dry-run console reporting is not identical to execute mode — the
dry-run banner and the summary section differ — although the dry run indeed
performs zero filesystem mutations. -/
theorem c9_console_differs_counterexample :
    (mainRun envEmpty [] readF0 [] true).2 = [] ∧
    (mainRun envEmpty [] readF0 [] true).1 ≠ (mainRun envEmpty [] readF0 [] false).1 :=
  ⟨by decide, by decide⟩

/-- Claim C9 (amended): for every input, a dry run performs zero filesystem
mutations — no directories created, no files written, no mapping manifest —
and its console report consists of the dry-run banner, then exactly the
report an execute run would print (directory list, mapping count, per-file
progress lines), then the dry-run summary in place of the execute summary;
only the banner and the summary section differ between the modes. -/
theorem c9_dry_run_no_effects (env : List Char → List SrcFile) (disk : List PathL)
    (readF : PathL → List Char) (gen : List Char) :
    (mainRun env disk readF gen true).2 = [] ∧
    (mainRun env disk readF gen true).1 =
      toL "=== DRY RUN MODE ===\n" :: (commonConsole env disk readF ++ dryTail) ∧
    (mainRun env disk readF gen false).1 =
      commonConsole env disk readF ++ execTail env disk readF gen := by
  have hb : build_filename_mapping (fun p => decide (p ∈ disk)) env false =
      build_filename_mapping (fun p => decide (p ∈ disk)) env true := rfl
  refine ⟨?_, ?_, ?_⟩
  · simp only [mainRun]
    rw [migrateLoop_effects_dry]
    simp [write_mapping_file]
  · simp only [mainRun, commonConsole, dryTail]
    rw [migrateLoop_warns]
    simp
  · simp only [mainRun, commonConsole, execTail]
    rw [migrateLoop_warns, hb, migrateLoop_lines]
    simp [write_mapping_file]

/-- Witness for C7 at a concrete already-normalized filename. -/
theorem c7_normalize_idempotent_witness :
    normalize_filename (toL "20240101_hello.md") (toL "20990101") =
      toL "20240101_hello.md" :=
  c7_normalize_idempotent '2' '0' '2' '4' '0' '1' '0' '1' (toL "hello")
    (toL "20990101") (by decide) (by decide) (by decide) (by decide) (by decide)
    (by decide) (by decide) (by decide) (by decide)
